import Mathlib

/-!
Verification of the repo-rules evaluation core of `app/src/lib/helpers/repo-rules.ts`:
ruleset selection by branch name (glob patterns with `~ALL` / `~DEFAULT` keywords),
aggregation of rule instances into a per-branch enforcement summary, and compilation
of metadata rule parameters into string matchers backed by an RE2-style regex engine.

The data types consumed by the file (`IAPIRepoRule`, `IAPIRepoRuleset`, the summary
record) are declared elsewhere in the repository; they are modelled here from the
spec's data-model section.  The two external libraries the file calls, `re2js` and
`minimatch`, are modelled by executable Lean functions mirroring their documented
semantics for the exact option sets used by the source.
-/

namespace RepoRules

/-- Modelled from the spec: rule type enum of `IAPIRepoRule` (`lib/api.ts` is not under
`src/`).  The ten known rule types of the spec's data model, plus an `unknown` variant
covering forward-compatible unrecognized types, which the aggregator ignores. -/
inductive APIRepoRuleType where
  | Update
  | Creation
  | PullRequest
  | RequiredDeployments
  | RequiredSignatures
  | RequiredStatusChecks
  | CommitMessagePattern
  | CommitAuthorEmailPattern
  | CommitterEmailPattern
  | BranchNamePattern
  | unknown (tag : String)
deriving DecidableEq

/-- Modelled from the spec: metadata rule operator enum (`lib/api.ts` is not under
`src/`): `starts_with`, `ends_with`, `contains`, `regex`, plus an `unknown` variant
for malformed or future operator values. -/
inductive APIRepoRuleMetadataOperator where
  | StartsWith
  | EndsWith
  | Contains
  | RegexMatch
  | unknown (tag : String)
deriving DecidableEq

/-- True for the four operators the matcher compiler recognizes. -/
def APIRepoRuleMetadataOperator.isRecognized : APIRepoRuleMetadataOperator → Bool
  | .unknown _ => false
  | _ => true

/-- Modelled from the spec: parameters of a pattern-typed rule — operator, pattern
text, negate flag (`lib/api.ts` is not under `src/`). -/
structure IAPIRepoRuleMetadataParameters where
  operator : APIRepoRuleMetadataOperator
  pattern : String
  negate : Bool
deriving DecidableEq

/-- Modelled from the spec: one governance rule instance — its type, the id of the
ruleset it belongs to, and (for pattern-typed rules) its parameters
(`lib/api.ts` is not under `src/`). -/
structure IAPIRepoRule where
  type : APIRepoRuleType
  ruleset_id : Nat
  parameters : Option IAPIRepoRuleMetadataParameters
deriving DecidableEq

/-- Modelled from the spec: the actor's bypass capability on a ruleset; only
`always` is distinguished from all other values for enforcement purposes. -/
inductive APIRepoRulesetBypass where
  | always
  | pull_requests_only
  | never
deriving DecidableEq

/-- Modelled from the spec: the `ref_name` condition of a ruleset — two ordered
lists of glob patterns (`lib/api.ts` is not under `src/`).  `include` is a Lean
keyword, hence the trailing underscore. -/
structure IAPIRepoRulesetRefNameConditions where
  include_ : List String
  exclude : List String
deriving DecidableEq

/-- Modelled from the spec: the optional conditions object of a ruleset, holding an
optional `ref_name` condition (`lib/api.ts` is not under `src/`). -/
structure IAPIRepoRulesetConditions where
  ref_name : Option IAPIRepoRulesetRefNameConditions
deriving DecidableEq

/-- Modelled from the spec: a ruleset — id, the current actor's bypass capability,
and optional targeting conditions (`lib/api.ts` is not under `src/`). -/
structure IAPIRepoRuleset where
  id : Nat
  current_user_can_bypass : APIRepoRulesetBypass
  conditions : Option IAPIRepoRulesetConditions
deriving DecidableEq

/-- The `ReadonlyMap<number, IAPIRepoRuleset>` consumed by the source, embedded as an
association list in insertion order (`Map` iteration order). -/
def RulesetMap := List (Nat × IAPIRepoRuleset)

/-- Embeds `rulesets.get(id)`. -/
def lookupRuleset (m : RulesetMap) (id : Nat) : Option IAPIRepoRuleset :=
  (List.find? (fun p => p.1 == id) m).map Prod.snd

/-- Modelled from the spec: tri-state enforcement level of `RepoRuleEnforced`
(`models/repo-rules.ts` is not under `src/`) — a category field is not present
until some rule instance of the category is merged, then `bypass` or `enforced`.
The source represents these as `undefined`/`false`, `'bypass'` and `true`. -/
inductive RepoRuleEnforced where
  | notPresent
  | bypass
  | enforced
deriving DecidableEq

/-- Numeric rank of an enforcement level for the strictest-wins ordering
`enforced > bypass > notPresent`. -/
def RepoRuleEnforced.level : RepoRuleEnforced → Nat
  | .notPresent => 0
  | .bypass => 1
  | .enforced => 2

/-- Character-class item of a regex or glob character class: a single character or
an inclusive range. -/
inductive ClsItem where
  | one (c : Char)
  | range (lo hi : Char)
deriving DecidableEq

/-- True when `c` belongs to one of the class items. -/
def clsMember (items : List ClsItem) (c : Char) : Bool :=
  items.any fun it =>
    match it with
    | .one d => c == d
    | .range lo hi => decide (lo ≤ c) && decide (c ≤ hi)

/-- Scans the body of a character class (the text after the opening bracket and any
negation marker) up to the closing bracket.  Returns the items and the remaining
input, or `none` when the class is never closed.  `a-b` forms a range unless the
dash is the last character before the closing bracket, in which case it is literal. -/
def scanClsItems : List Char → List ClsItem → Option (List ClsItem × List Char)
  | [], _ => none
  | ']' :: rest, acc => some (acc.reverse, rest)
  | a :: '-' :: b :: rest, acc =>
    if b == ']' then some ((ClsItem.one '-' :: ClsItem.one a :: acc).reverse, rest)
    else scanClsItems rest (ClsItem.range a b :: acc)
  | a :: rest, acc => scanClsItems rest (ClsItem.one a :: acc)

/-- Abstract syntax of the RE2 regex subset modelled here: empty word, literal
character, any character (not newline), start and end anchors, character classes,
concatenation, alternation and Kleene star.  `+` and `?` are desugared by the
parser. -/
inductive RE2 where
  | eps
  | lit (c : Char)
  | any
  | bol
  | eol
  | cls (neg : Bool) (items : List ClsItem)
  | concat (a b : RE2)
  | alt (a b : RE2)
  | star (a : RE2)
deriving DecidableEq

/-- Scans a regex character class after its opening bracket: an optional caret
negation marker, then items, where a closing bracket in first position is literal. -/
def re2ScanCls (cs : List Char) : Option (Bool × List ClsItem × List Char) :=
  match cs with
  | '^' :: (']' :: r) => (scanClsItems r [ClsItem.one ']']).map (fun x => (true, x.1, x.2))
  | '^' :: r => (scanClsItems r []).map (fun x => (true, x.1, x.2))
  | ']' :: r => (scanClsItems r [ClsItem.one ']']).map (fun x => (false, x.1, x.2))
  | r => (scanClsItems r []).map (fun x => (false, x.1, x.2))

/-- Meaning of a backslash escape: the common shorthand classes, control
characters, and otherwise the literal escaped character. -/
def re2Escape (c : Char) : RE2 :=
  match c with
  | 'n' => .lit '\n'
  | 't' => .lit '\t'
  | 'r' => .lit '\r'
  | 'd' => .cls false [.range '0' '9']
  | 'D' => .cls true [.range '0' '9']
  | 'w' => .cls false [.range 'a' 'z', .range 'A' 'Z', .range '0' '9', .one '_']
  | 'W' => .cls true [.range 'a' 'z', .range 'A' 'Z', .range '0' '9', .one '_']
  | 's' => .cls false [.one ' ', .one '\t', .one '\n', .one '\r']
  | 'S' => .cls true [.one ' ', .one '\t', .one '\n', .one '\r']
  | _ => .lit c

mutual

/-- Recursive-descent parse of an alternation (the top production).  The fuel
argument strictly decreases on every call and is sized by the caller so that it
never runs out on real input. -/
def reParseAlt : Nat → List Char → Except String (RE2 × List Char)
  | 0, _ => .error "re2: fuel exhausted"
  | f + 1, cs =>
    match reParseConcat f cs with
    | .error e => .error e
    | .ok (r, rest) =>
      match rest with
      | '|' :: rest2 =>
        match reParseAlt f rest2 with
        | .error e => .error e
        | .ok (r2, rest3) => .ok (.alt r r2, rest3)
      | _ => .ok (r, rest)

/-- Parse of a concatenation: a sequence of repeated atoms ending at the end of
input, a group close, or an alternation bar. -/
def reParseConcat : Nat → List Char → Except String (RE2 × List Char)
  | 0, _ => .error "re2: fuel exhausted"
  | f + 1, cs =>
    match cs with
    | [] => .ok (.eps, [])
    | ')' :: _ => .ok (.eps, cs)
    | '|' :: _ => .ok (.eps, cs)
    | _ =>
      match reParseRepeat f cs with
      | .error e => .error e
      | .ok (r, rest) =>
        match reParseConcat f rest with
        | .error e => .error e
        | .ok (r2, rest2) => .ok (.concat r r2, rest2)

/-- Parse of an atom followed by its postfix repetition operators. -/
def reParseRepeat : Nat → List Char → Except String (RE2 × List Char)
  | 0, _ => .error "re2: fuel exhausted"
  | f + 1, cs =>
    match reParseAtom f cs with
    | .error e => .error e
    | .ok (r, rest) => reParsePostfix f r rest

/-- Applies any postfix star, plus or question-mark operators to a parsed atom. -/
def reParsePostfix : Nat → RE2 → List Char → Except String (RE2 × List Char)
  | 0, _, _ => .error "re2: fuel exhausted"
  | f + 1, r, cs =>
    match cs with
    | '*' :: rest => reParsePostfix f (.star r) rest
    | '+' :: rest => reParsePostfix f (.concat r (.star r)) rest
    | '?' :: rest => reParsePostfix f (.alt r .eps) rest
    | _ => .ok (r, cs)

/-- Parse of a single atom: group, character class, escape, dot, anchor or
literal character.  An unclosed group or class, a trailing backslash, and a
repetition operator with no operand are compilation errors, as in RE2. -/
def reParseAtom : Nat → List Char → Except String (RE2 × List Char)
  | 0, _ => .error "re2: fuel exhausted"
  | f + 1, cs =>
    match cs with
    | [] => .error "re2: missing operand"
    | '(' :: rest =>
      match reParseAlt f rest with
      | .error e => .error e
      | .ok (r, rest2) =>
        match rest2 with
        | ')' :: rest3 => .ok (r, rest3)
        | _ => .error "re2: missing closing parenthesis"
    | '[' :: rest =>
      match re2ScanCls rest with
      | some (neg, items, rest2) => .ok (.cls neg items, rest2)
      | none => .error "re2: missing closing bracket"
    | '\\' :: c :: rest => .ok (re2Escape c, rest)
    | ['\\'] => .error "re2: trailing backslash"
    | '.' :: rest => .ok (.any, rest)
    | '^' :: rest => .ok (.bol, rest)
    | '$' :: rest => .ok (.eol, rest)
    | '*' :: _ => .error "re2: missing argument to repetition operator"
    | '+' :: _ => .error "re2: missing argument to repetition operator"
    | '?' :: _ => .error "re2: missing argument to repetition operator"
    | c :: rest => .ok (.lit c, rest)

end

/-- Model of `RE2JS.compile` on a raw pattern string: parse the pattern, requiring
all input to be consumed (leftover input can only be an unmatched group close).
Returns the syntax error carried by the thrown `RE2JSSyntaxException` as `.error`. -/
def re2Compile (pattern : String) : Except String RE2 :=
  match reParseAlt (4 * pattern.length + 16) pattern.data with
  | .error e => .error e
  | .ok (r, []) => .ok r
  | .ok (_, _ :: _) => .error "re2: unexpected closing parenthesis"

/-- End positions reachable when matching `r` against `s` starting at position `i`.
Star unrolling is bounded by `fuel`; one unrolling step is only taken from end
positions that strictly advanced, so fuel exceeding the string length is never
exhausted. -/
def reEnds (fuel : Nat) (s : List Char) (r : RE2) (i : Nat) : List Nat :=
  match r with
  | .eps => [i]
  | .bol => if i == 0 then [i] else []
  | .eol => if i == s.length then [i] else []
  | .lit c =>
    match s[i]? with
    | some d => if c == d then [i + 1] else []
    | none => []
  | .any =>
    match s[i]? with
    | some d => if d == '\n' then [] else [i + 1]
    | none => []
  | .cls neg items =>
    match s[i]? with
    | some d => if clsMember items d != neg then [i + 1] else []
    | none => []
  | .concat a b => ((reEnds fuel s a i).map (fun j => reEnds fuel s b j)).flatten
  | .alt a b => reEnds fuel s a i ++ reEnds fuel s b i
  | .star a =>
    match fuel with
    | 0 => [i]
    | f + 1 =>
      i :: (((reEnds (f + 1) s a i).filter (fun j => i < j)).map
        (fun j => reEnds f s (RE2.star a) j)).flatten
termination_by (fuel, sizeOf r)

/-- Unanchored find semantics of a compiled RE2 pattern, as used by
`regex.matcher(input).find()`: some substring starting at some position matches. -/
def reFindGeneric (r : RE2) (s : List Char) : Bool :=
  (List.range (s.length + 1)).any (fun i => !(reEnds (s.length + 1) s r i).isEmpty)

/-- True when a path segment starts with a dot; minimatch refuses to match such a
segment with a wildcard unless the pattern segment itself starts with a dot. -/
def segStartsDot : List Char → Bool
  | '.' :: _ => true
  | _ => false

/-- Scans a glob character class after its opening bracket: an optional bang or
caret negation marker, then items, where a closing bracket in first position is
literal. -/
def scanGlobCls (cs : List Char) : Option (Bool × List ClsItem × List Char) :=
  match cs with
  | '!' :: (']' :: r) => (scanClsItems r [ClsItem.one ']']).map (fun x => (true, x.1, x.2))
  | '!' :: r => (scanClsItems r []).map (fun x => (true, x.1, x.2))
  | '^' :: (']' :: r) => (scanClsItems r [ClsItem.one ']']).map (fun x => (true, x.1, x.2))
  | '^' :: r => (scanClsItems r []).map (fun x => (true, x.1, x.2))
  | ']' :: r => (scanClsItems r [ClsItem.one ']']).map (fun x => (false, x.1, x.2))
  | r => (scanClsItems r []).map (fun x => (false, x.1, x.2))

/-- Wildcard match of one glob pattern segment against one name segment: star,
question mark, character classes (with bang or caret negation; an unclosed class
leaves the opening bracket literal) and backslash escapes.  The fuel strictly
decreases on each call and `pattern length + name length + 1` is always enough. -/
def segMatch (fuel : Nat) (p n : List Char) : Bool :=
  match fuel with
  | 0 => false
  | f + 1 =>
    match p, n with
    | [], [] => true
    | [], _ :: _ => false
    | '*' :: ps, ns => segMatch f ps ns || (match ns with
        | [] => false
        | _ :: ns2 => segMatch f p ns2)
    | '?' :: ps, _ :: ns2 => segMatch f ps ns2
    | '\\' :: c :: ps, d :: ns2 => c == d && segMatch f ps ns2
    | ['\\'], ns => ns == ['\\']
    | '[' :: ps, ns =>
      match scanGlobCls ps with
      | some (neg, items, rest) =>
        (match ns with
         | [] => false
         | d :: ns2 => (clsMember items d != neg) && segMatch f rest ns2)
      | none =>
        (match ns with
         | [] => false
         | d :: ns2 => ('[' == d) && segMatch f ps ns2)
    | c :: ps, d :: ns2 => c == d && segMatch f ps ns2
    | _ :: _, [] => false

/-- Match of a list of glob pattern segments against a list of name segments.  A
segment that is exactly a double star matches zero or more whole segments (the
globstar option is on in the source's option set); every other segment is matched
by `segMatch`, with the dotfile guard.  The fuel strictly decreases on each call
and `pattern segments + name segments + 1` is always enough, since every call
also consumes a pattern segment or a name segment. -/
def segsMatch (fuel : Nat) (ps ns : List (List Char)) : Bool :=
  match fuel with
  | 0 => false
  | f + 1 =>
    match ps, ns with
    | [], [] => true
    | [], _ :: _ => false
    | p :: ps2, ns =>
      if p == ['*', '*'] then
        segsMatch f ps2 ns ||
          (match ns with
           | [] => false
           | n :: ns2 => !segStartsDot n && segsMatch f (p :: ps2) ns2)
      else
        match ns with
        | [] => false
        | n :: ns2 =>
          !(segStartsDot n && !segStartsDot p) &&
            segMatch (p.length + n.length + 1) p n && segsMatch f ps2 ns2

/-- Splits a character list on slashes, keeping empty segments (the source's
option set preserves multiple slashes). -/
def splitSlashes : List Char → List Char → List (List Char)
  | [], acc => [acc.reverse]
  | '/' :: t, acc => acc.reverse :: splitSlashes t []
  | c :: t, acc => splitSlashes t (c :: acc)

/-- Model of `minimatch.match([name], pattern, REPO_RULES_MINIMATCH_OPTIONS).length > 0`
for the option set of the source: brace expansion, comments, extended globs and
negation are disabled, multiple slashes are preserved, matching is case-sensitive
and globstar is on.  Pattern and name are split on slashes and matched segmentwise. -/
def minimatchMatch (name pattern : String) : Bool :=
  let ps := splitSlashes pattern.data []
  let ns := splitSlashes name.data []
  segsMatch (ps.length + ns.length + 1) ps ns

/-- Models the truthiness test `defaultBranchName && defaultBranchName === branchName`
of the source: a null or empty default branch name is falsy. -/
def defaultBranchEquals (defaultBranchName : Option String) (branchName : String) : Bool :=
  match defaultBranchName with
  | none => false
  | some db => db != "" && db == branchName

/-- Embeds `branchNameMatchesPatterns`: for each pattern, first the keyword check
(only when `matchKeywords` is set) recognizing `~ALL` unconditionally and
`~DEFAULT` when the branch equals the known default branch, then the minimatch
glob check; true on the first pattern that matches, false when the list (or a
missing list, `patterns ?? []`) is exhausted. -/
def branchNameMatchesPatterns (branchName : String) (patterns : Option (List String))
    (defaultBranchName : Option String) (matchKeywords : Bool) : Bool :=
  (patterns.getD []).any fun p =>
    (matchKeywords &&
      (p == "~ALL" || (p == "~DEFAULT" && defaultBranchEquals defaultBranchName branchName)))
    || minimatchMatch branchName p

/-- Embeds the optional chain `rs.conditions?.ref_name?.include`. -/
def rsInclude (rs : IAPIRepoRuleset) : Option (List String) :=
  (rs.conditions.bind IAPIRepoRulesetConditions.ref_name).map
    IAPIRepoRulesetRefNameConditions.include_

/-- Embeds the optional chain `rs.conditions?.ref_name?.exclude`. -/
def rsExclude (rs : IAPIRepoRuleset) : Option (List String) :=
  (rs.conditions.bind IAPIRepoRulesetConditions.ref_name).map
    IAPIRepoRulesetRefNameConditions.exclude

/-- Embeds the emptiness test `!list || list.length === 0` on an optional pattern
list. -/
def optEmptyPatterns : Option (List String) → Bool
  | none => true
  | some l => l.isEmpty

/-- Embeds the loop body of `getRulesetsApplicableToBranchName` over the ruleset
values: skip when both pattern lists are empty or absent, skip when the include
check (keywords on) fails, then keep the ruleset exactly when the exclude check
(keywords off) fails. -/
def applicableGo (branchName : String) (defaultBranchName : Option String) :
    List IAPIRepoRuleset → List IAPIRepoRuleset
  | [] => []
  | rs :: rest =>
    let included := rsInclude rs
    let excluded := rsExclude rs
    if optEmptyPatterns included && optEmptyPatterns excluded then
      applicableGo branchName defaultBranchName rest
    else if !branchNameMatchesPatterns branchName included defaultBranchName true then
      applicableGo branchName defaultBranchName rest
    else if !branchNameMatchesPatterns branchName excluded defaultBranchName false then
      rs :: applicableGo branchName defaultBranchName rest
    else
      applicableGo branchName defaultBranchName rest

/-- Embeds `getRulesetsApplicableToBranchName`: empty result for an empty branch
name (the only falsy string) or an empty ruleset map, otherwise the loop over the
map's values in insertion order. -/
def getRulesetsApplicableToBranchName (branchName : String) (rulesets : RulesetMap)
    (defaultBranchName : Option String) : List IAPIRepoRuleset :=
  if branchName == "" || List.length rulesets == 0 then []
  else applicableGo branchName defaultBranchName (rulesets.map Prod.snd)

/-- Substring test on character lists: true when `p` occurs contiguously in `s`. -/
def listContainsSub (p : List Char) : List Char → Bool
  | [] => p.isPrefixOf []
  | c :: t => p.isPrefixOf (c :: t) || listContainsSub p t

/-- The regex value produced by the `RE2JS.compile` calls in `toMatcher`.  The
three literal operators compile a quoted (metacharacter-free) pattern with an
anchor or wrapping dot-stars, so their find semantics reduce to prefix, suffix and
substring tests on the literal pattern text; `generic` carries the parse of a raw
`regex_match` pattern. -/
inductive CompiledRegex where
  | anchoredStart (p : String)
  | anchoredEnd (p : String)
  | containsLit (p : String)
  | generic (r : RE2)
deriving DecidableEq

/-- Model of `regex.matcher(input).find()` on the compiled regex: an unanchored
search for a matching substring.  For the quoted-literal shapes produced by the
literal operators this is the corresponding prefix, suffix or substring test. -/
def CompiledRegex.find : CompiledRegex → String → Bool
  | .anchoredStart p, s => p.data.isPrefixOf s.data
  | .anchoredEnd p, s => p.data.isSuffixOf s.data
  | .containsLit p, s => listContainsSub p.data s.data
  | .generic r, s => reFindGeneric r s.data

/-- The matcher closure returned by `toMatcher`, represented by its captured data:
the always-false fallback, a find on the compiled regex, or a negated find. -/
inductive RepoRulesMetadataMatcher where
  | alwaysFalse
  | find (r : CompiledRegex)
  | negFind (r : CompiledRegex)
deriving DecidableEq

/-- Applies a matcher to a candidate string, mirroring the closure bodies of
`toMatcher`. -/
def RepoRulesMetadataMatcher.run : RepoRulesMetadataMatcher → String → Bool
  | .alwaysFalse, _ => false
  | .find r, s => r.find s
  | .negFind r, s => !(r.find s)

/-- The `RE2JS.compile` call of the `switch` in `toMatcher` for each operator:
the three literal operators compile the quoted pattern with their anchors and
never fail; `regex_match` compiles the raw pattern and can fail; an unrecognized
operator leaves the regex variable unassigned (`none`). -/
def compileForOperator (operator : APIRepoRuleMetadataOperator) (pattern : String) :
    Except String (Option CompiledRegex)
  := match operator with
  | .StartsWith => .ok (some (.anchoredStart pattern))
  | .EndsWith => .ok (some (.anchoredEnd pattern))
  | .Contains => .ok (some (.containsLit pattern))
  | .RegexMatch =>
    match re2Compile pattern with
    | .error e => .error e
    | .ok r => .ok (some (.generic r))
  | .unknown _ => .ok none

/-- Embeds `toMatcher`: always-false for absent parameters, otherwise compile per
operator (propagating a thrown regex syntax error), then an always-false matcher
when no regex was assigned, else a find matcher inverted by the negate flag. -/
def toMatcher (rule : Option IAPIRepoRuleMetadataParameters) :
    Except String RepoRulesMetadataMatcher :=
  match rule with
  | none => .ok .alwaysFalse
  | some r =>
    match compileForOperator r.operator r.pattern with
    | .error e => .error e
    | .ok none => .ok .alwaysFalse
    | .ok (some regex) =>
      if r.negate then .ok (.negFind regex) else .ok (.find regex)

/-- Embeds `toHumanDescription`: the prefix `must `, an optional `not `, the
operator's verb (nothing for an unrecognized operator, whose `switch` falls
through), and the quoted pattern text. -/
def toHumanDescription (apiParams : IAPIRepoRuleMetadataParameters) : String :=
  let description := "must " ++ (if apiParams.negate then "not " else "")
  if apiParams.operator == .RegexMatch then
    description ++ "match the regular expression \"" ++ apiParams.pattern ++ "\""
  else
    let description := description ++
      (match apiParams.operator with
       | .StartsWith => "start with "
       | .EndsWith => "end with "
       | .Contains => "contain "
       | _ => "")
    description ++ "\"" ++ apiParams.pattern ++ "\""

/-- The compiled form of one pattern-typed rule as stored in the summary lists:
enforcement level, matcher, human-readable description and owning ruleset id. -/
structure IRepoRulesMetadataRule where
  enforced : RepoRuleEnforced
  matcher : RepoRulesMetadataMatcher
  humanDescription : String
  rulesetId : Nat
deriving DecidableEq

/-- Embeds `toMetadataRule`: no entry when the rule has no parameters, otherwise
an entry carrying the enforcement level, the compiled matcher (whose compilation
may throw), the description and the ruleset id. -/
def toMetadataRule (rule : IAPIRepoRule) (enforced : RepoRuleEnforced) :
    Except String (Option IRepoRulesMetadataRule) :=
  match rule.parameters with
  | none => .ok none
  | some ps =>
    match toMatcher (some ps) with
    | .error e => .error e
    | .ok matcher =>
      .ok (some { enforced := enforced, matcher := matcher,
                  humanDescription := toHumanDescription ps,
                  rulesetId := rule.ruleset_id })

/-- Modelled from the spec: the resolution summary `RepoRulesInfo`
(`models/repo-rules.ts` is not under `src/`) — one tri-state enforcement field per
simple category and four ordered lists of metadata rule entries, all initially
empty. -/
structure RepoRulesInfo where
  basicCommitWarning : RepoRuleEnforced := .notPresent
  creationRestricted : RepoRuleEnforced := .notPresent
  pullRequestRequired : RepoRuleEnforced := .notPresent
  commitMessagePatterns : List IRepoRulesMetadataRule := []
  commitAuthorEmailPatterns : List IRepoRulesMetadataRule := []
  committerEmailPatterns : List IRepoRulesMetadataRule := []
  branchNamePatterns : List IRepoRulesMetadataRule := []
deriving DecidableEq

/-- Modelled from the spec: appending to a summary list ignores the absent entry
returned by `toMetadataRule` for a rule without parameters, so the lists contain
only real entries (`models/repo-rules.ts` is not under `src/`). -/
def pushEntry (l : List IRepoRulesMetadataRule) :
    Option IRepoRulesMetadataRule → List IRepoRulesMetadataRule
  | none => l
  | some e => l ++ [e]

/-- The per-instance enforcement level computed by the aggregator: `bypass` when
the ruleset's bypass capability is exactly `always`, else `enforced`. -/
def enfOf (rs : IAPIRepoRuleset) : RepoRuleEnforced :=
  if rs.current_user_can_bypass == .always then .bypass else .enforced

/-- The strictest-wins assignment `field = field !== true ? enforced : true` of
the aggregator, with `true` rendered as `enforced`. -/
def mergeEnforced (cur e : RepoRuleEnforced) : RepoRuleEnforced :=
  if cur ≠ .enforced then e else .enforced

/-- The three simple (non-pattern) rule categories of the summary. -/
inductive SimpleCategory where
  | basic
  | creation
  | pullRequest
deriving DecidableEq

/-- The summary field of a simple category. -/
def categoryField (c : SimpleCategory) (info : RepoRulesInfo) : RepoRuleEnforced :=
  match c with
  | .basic => info.basicCommitWarning
  | .creation => info.creationRestricted
  | .pullRequest => info.pullRequestRequired

/-- The simple category a rule type merges into, following the `switch` of
`parseRepoRules`; `none` for pattern-typed and unrecognized types. -/
def ruleCategory : APIRepoRuleType → Option SimpleCategory
  | .Update => some .basic
  | .RequiredDeployments => some .basic
  | .RequiredSignatures => some .basic
  | .RequiredStatusChecks => some .basic
  | .Creation => some .creation
  | .PullRequest => some .pullRequest
  | _ => none

/-- Embeds one iteration of the `parseRepoRules` loop: drop the rule when its
ruleset is unknown, compute the instance enforcement level, then dispatch on the
rule type — simple categories merge strictest-wins, pattern types compile and
append an entry (propagating a thrown regex syntax error), unrecognized types are
ignored. -/
def parseStep (rulesets : RulesetMap) (info : RepoRulesInfo) (rule : IAPIRepoRule) :
    Except String RepoRulesInfo :=
  match lookupRuleset rulesets rule.ruleset_id with
  | none => .ok info
  | some ruleset =>
    match rule.type with
    | .Update | .RequiredDeployments | .RequiredSignatures | .RequiredStatusChecks =>
      .ok { info with basicCommitWarning := mergeEnforced info.basicCommitWarning (enfOf ruleset) }
    | .Creation =>
      .ok { info with creationRestricted := mergeEnforced info.creationRestricted (enfOf ruleset) }
    | .PullRequest =>
      .ok { info with pullRequestRequired := mergeEnforced info.pullRequestRequired (enfOf ruleset) }
    | .CommitMessagePattern =>
      match toMetadataRule rule (enfOf ruleset) with
      | .error e => .error e
      | .ok entry => .ok { info with commitMessagePatterns := pushEntry info.commitMessagePatterns entry }
    | .CommitAuthorEmailPattern =>
      match toMetadataRule rule (enfOf ruleset) with
      | .error e => .error e
      | .ok entry => .ok { info with commitAuthorEmailPatterns := pushEntry info.commitAuthorEmailPatterns entry }
    | .CommitterEmailPattern =>
      match toMetadataRule rule (enfOf ruleset) with
      | .error e => .error e
      | .ok entry => .ok { info with committerEmailPatterns := pushEntry info.committerEmailPatterns entry }
    | .BranchNamePattern =>
      match toMetadataRule rule (enfOf ruleset) with
      | .error e => .error e
      | .ok entry => .ok { info with branchNamePatterns := pushEntry info.branchNamePatterns entry }
    | .unknown _ => .ok info

/-- The `parseRepoRules` loop over the rule list, threading the summary and
stopping at the first thrown error. -/
def parseRepoRulesGo (rulesets : RulesetMap) (info : RepoRulesInfo) :
    List IAPIRepoRule → Except String RepoRulesInfo
  | [] => .ok info
  | r :: rest =>
    match parseStep rulesets info r with
    | .error e => .error e
    | .ok info2 => parseRepoRulesGo rulesets info2 rest

/-- Embeds `parseRepoRules`: fold the loop body over the rules starting from a
fresh, empty summary. -/
def parseRepoRules (rules : List IAPIRepoRule) (rulesets : RulesetMap) :
    Except String RepoRulesInfo :=
  parseRepoRulesGo rulesets {} rules

/-! Helper lemmas shared by the claim theorems. -/

/-- A missing or empty pattern list matches no branch name. -/
lemma branchNameMatchesPatterns_empty (bn : String) (ps : Option (List String))
    (d : Option String) (k : Bool) (h : optEmptyPatterns ps = true) :
    branchNameMatchesPatterns bn ps d k = false := by
  cases ps with
  | none => rfl
  | some l =>
    cases l with
    | nil => rfl
    | cons a t => simp [optEmptyPatterns] at h

/-- The selector loop is the filter by include-match (keywords on) and
non-exclude-match (keywords off); the skip of rulesets with two empty lists is
absorbed because an empty include list never matches. -/
lemma applicableGo_filter (bn : String) (d : Option String) (l : List IAPIRepoRuleset) :
    applicableGo bn d l = l.filter (fun rs =>
      branchNameMatchesPatterns bn (rsInclude rs) d true &&
      !branchNameMatchesPatterns bn (rsExclude rs) d false) := by
  induction l with
  | nil => rfl
  | cons rs rest ih =>
    by_cases hbe : (optEmptyPatterns (rsInclude rs) && optEmptyPatterns (rsExclude rs)) = true
    · have hinc : branchNameMatchesPatterns bn (rsInclude rs) d true = false :=
        branchNameMatchesPatterns_empty bn _ d true ((Bool.and_eq_true _ _).mp hbe).1
      simp [applicableGo, hbe, List.filter_cons, hinc, ih]
    · rw [Bool.not_eq_true] at hbe
      by_cases hinc : branchNameMatchesPatterns bn (rsInclude rs) d true
      · by_cases hexc : branchNameMatchesPatterns bn (rsExclude rs) d false
        · simp [applicableGo, hbe, hinc, hexc, List.filter_cons, ih]
        · simp [applicableGo, hbe, hinc, hexc, List.filter_cons, ih]
      · simp [applicableGo, hbe, hinc, List.filter_cons, ih]

/-- An enforcement level is at most `enforced`. -/
lemma level_le_two (a : RepoRuleEnforced) : a.level ≤ 2 := by
  cases a <;> simp [RepoRuleEnforced.level]

/-- Only `enforced` has the top level. -/
lemma enforced_of_two_le (a : RepoRuleEnforced) (h : 2 ≤ a.level) : a = .enforced := by
  cases a <;> simp_all [RepoRuleEnforced.level]

/-- Merging an instance level that is actually present never lowers the field. -/
lemma mergeEnforced_le (a e : RepoRuleEnforced) (he : e ≠ .notPresent) :
    a.level ≤ (mergeEnforced a e).level := by
  cases a <;> cases e <;> simp_all [mergeEnforced, RepoRuleEnforced.level]

/-- The strictest-wins assignment is monotone in the current field value. -/
lemma mergeEnforced_mono (a b e : RepoRuleEnforced) (h : a.level ≤ b.level) :
    (mergeEnforced a e).level ≤ (mergeEnforced b e).level := by
  cases a <;> cases b <;> cases e <;> simp_all [mergeEnforced, RepoRuleEnforced.level]

/-- Merging a strictly enforced instance yields the strict value whatever the
current field holds. -/
lemma mergeEnforced_enforced (a : RepoRuleEnforced) :
    mergeEnforced a .enforced = .enforced := by
  cases a <;> rfl

/-- The per-instance level is `bypass` or `enforced`, never absent. -/
lemma enfOf_ne_notPresent (rs : IAPIRepoRuleset) : enfOf rs ≠ .notPresent := by
  cases hb : rs.current_user_can_bypass <;> simp [enfOf, hb]

/-- A ruleset whose bypass capability is not exactly `always` yields the strict
instance level. -/
lemma enfOf_of_not_always (rs : IAPIRepoRuleset)
    (h : rs.current_user_can_bypass ≠ .always) : enfOf rs = .enforced := by
  cases hb : rs.current_user_can_bypass <;> simp_all [enfOf, hb]

/-- A rule whose ruleset is unknown leaves the summary unchanged. -/
lemma parseStep_ok_of_none (m : RulesetMap) (b : RepoRulesInfo) (r : IAPIRepoRule)
    (hlk : lookupRuleset m r.ruleset_id = none) : parseStep m b r = .ok b := by
  unfold parseStep
  rw [hlk]

/-- A successful aggregation step leaves every simple category other than the
rule's own category unchanged. -/
lemma parseStep_field_frame (m : RulesetMap) (b : RepoRulesInfo) (r : IAPIRepoRule)
    (i : RepoRulesInfo) (c : SimpleCategory) (h : parseStep m b r = .ok i)
    (hne : ruleCategory r.type ≠ some c) : categoryField c i = categoryField c b := by
  unfold parseStep at h
  cases hlk : lookupRuleset m r.ruleset_id <;> rw [hlk] at h
  · cases h; rfl
  case some rs =>
    revert hne h
    cases r.type <;> intro hne h <;>
      first
      | (cases h; cases c <;> simp_all [ruleCategory, categoryField])
      | (dsimp only at h
         cases hmr : toMetadataRule r (enfOf rs) <;> rw [hmr] at h
         · simp at h
         · cases h; cases c <;> rfl)

/-- A successful aggregation step on a rule of simple category `c` whose ruleset
resolves applies the strictest-wins assignment to the field of `c`. -/
lemma parseStep_field_cat (m : RulesetMap) (b : RepoRulesInfo) (r : IAPIRepoRule)
    (i : RepoRulesInfo) (rs : IAPIRepoRuleset) (c : SimpleCategory)
    (h : parseStep m b r = .ok i) (hlk : lookupRuleset m r.ruleset_id = some rs)
    (hrc : ruleCategory r.type = some c) :
    categoryField c i = mergeEnforced (categoryField c b) (enfOf rs) := by
  unfold parseStep at h
  rw [hlk] at h
  revert hrc h
  cases r.type <;> intro h hrc <;>
    first
    | (cases h
       simp only [ruleCategory, Option.some.injEq] at hrc
       subst hrc
       rfl)
    | simp [ruleCategory] at hrc

/-- A successful aggregation step never lowers a category field's level. -/
lemma parseStep_level_le (m : RulesetMap) (b : RepoRulesInfo) (r : IAPIRepoRule)
    (i : RepoRulesInfo) (c : SimpleCategory) (h : parseStep m b r = .ok i) :
    (categoryField c b).level ≤ (categoryField c i).level := by
  by_cases hrc : ruleCategory r.type = some c
  · cases hlk : lookupRuleset m r.ruleset_id with
    | none =>
      rw [parseStep_ok_of_none m b r hlk] at h
      cases h
      exact le_refl _
    | some rs =>
      rw [parseStep_field_cat m b r i rs c h hlk hrc]
      exact mergeEnforced_le _ _ (enfOf_ne_notPresent rs)
  · rw [parseStep_field_frame m b r i c h hrc]

/-- A successful aggregation step is monotone in the incoming field level. -/
lemma parseStep_level_mono (m : RulesetMap) (b b2 : RepoRulesInfo) (r : IAPIRepoRule)
    (i i2 : RepoRulesInfo) (c : SimpleCategory) (h : parseStep m b r = .ok i)
    (h2 : parseStep m b2 r = .ok i2)
    (hle : (categoryField c b).level ≤ (categoryField c b2).level) :
    (categoryField c i).level ≤ (categoryField c i2).level := by
  by_cases hrc : ruleCategory r.type = some c
  · cases hlk : lookupRuleset m r.ruleset_id with
    | none =>
      rw [parseStep_ok_of_none m b r hlk] at h
      rw [parseStep_ok_of_none m b2 r hlk] at h2
      cases h; cases h2
      exact hle
    | some rs =>
      rw [parseStep_field_cat m b r i rs c h hlk hrc,
        parseStep_field_cat m b2 r i2 rs c h2 hlk hrc]
      exact mergeEnforced_mono _ _ _ hle
  · rw [parseStep_field_frame m b r i c h hrc, parseStep_field_frame m b2 r i2 c h2 hrc]
    exact hle

/-- A successful run of the aggregation loop never lowers a category field's
level. -/
lemma parseGo_level_le (m : RulesetMap) (c : SimpleCategory) :
    ∀ (l : List IAPIRepoRule) (b i : RepoRulesInfo), parseRepoRulesGo m b l = .ok i →
      (categoryField c b).level ≤ (categoryField c i).level := by
  intro l
  induction l with
  | nil =>
    intro b i h
    cases h
    exact le_refl _
  | cons r t ih =>
    intro b i h
    unfold parseRepoRulesGo at h
    cases hs : parseStep m b r <;> rw [hs] at h
    · simp at h
    · exact le_trans (parseStep_level_le m b r _ c hs) (ih _ _ h)

/-- Running the aggregation loop on a sublist from a lower starting field never
overtakes running it on the superlist from a higher starting field. -/
lemma parseGo_mono (m : RulesetMap) (c : SimpleCategory) :
    ∀ {l1 l2 : List IAPIRepoRule}, List.Sublist l1 l2 →
      ∀ {b1 b2 i1 i2 : RepoRulesInfo},
        (categoryField c b1).level ≤ (categoryField c b2).level →
        parseRepoRulesGo m b1 l1 = .ok i1 → parseRepoRulesGo m b2 l2 = .ok i2 →
        (categoryField c i1).level ≤ (categoryField c i2).level := by
  intro l1 l2 hsub
  induction hsub with
  | slnil =>
    intro b1 b2 i1 i2 hle h1 h2
    cases h1; cases h2
    exact hle
  | cons x hsub ih =>
    intro b1 b2 i1 i2 hle h1 h2
    unfold parseRepoRulesGo at h2
    cases hs : parseStep m b2 x <;> rw [hs] at h2
    · simp at h2
    · exact ih (le_trans hle (parseStep_level_le m b2 x _ c hs)) h1 h2
  | cons₂ x hsub ih =>
    intro b1 b2 i1 i2 hle h1 h2
    unfold parseRepoRulesGo at h1 h2
    cases hs1 : parseStep m b1 x <;> rw [hs1] at h1
    · simp at h1
    · cases hs2 : parseStep m b2 x <;> rw [hs2] at h2
      · simp at h2
      · exact ih (parseStep_level_mono m b1 b2 x _ _ c hs1 hs2 hle) h1 h2

/-- Splitting the aggregation loop at a list append. -/
lemma parseGo_append (m : RulesetMap) (b : RepoRulesInfo) (l1 l2 : List IAPIRepoRule) :
    parseRepoRulesGo m b (l1 ++ l2) =
      match parseRepoRulesGo m b l1 with
      | .error e => .error e
      | .ok mid => parseRepoRulesGo m mid l2 := by
  induction l1 generalizing b with
  | nil => rfl
  | cons r t ih =>
    rw [List.cons_append]
    simp only [parseRepoRulesGo]
    cases hs : parseStep m b r
    · simp only [hs]
    · simp only [hs]
      exact ih _

/-! Claim theorems. -/

/-- C1: `getRulesetsApplicableToBranchName` returns the empty list for an empty
branch name or an empty ruleset map; for a nonempty branch name it returns exactly
the rulesets (in map order) whose include list matches the branch name with
keyword semantics enabled and whose exclude list does not match it with keyword
semantics disabled; a ruleset whose include and exclude lists are both empty or
absent is never returned. -/
theorem getRulesetsApplicableToBranchName_correct (bn : String) (m : RulesetMap)
    (d : Option String) :
    getRulesetsApplicableToBranchName "" m d = [] ∧
    getRulesetsApplicableToBranchName bn [] d = [] ∧
    (bn ≠ "" →
      getRulesetsApplicableToBranchName bn m d =
        (m.map Prod.snd).filter (fun rs =>
          branchNameMatchesPatterns bn (rsInclude rs) d true &&
          !branchNameMatchesPatterns bn (rsExclude rs) d false)) ∧
    (∀ rs ∈ getRulesetsApplicableToBranchName bn m d,
      (optEmptyPatterns (rsInclude rs) && optEmptyPatterns (rsExclude rs)) = false) := by
  have hfilter : bn ≠ "" →
      getRulesetsApplicableToBranchName bn m d =
        (m.map Prod.snd).filter (fun rs =>
          branchNameMatchesPatterns bn (rsInclude rs) d true &&
          !branchNameMatchesPatterns bn (rsExclude rs) d false) := by
    intro hbn
    have hbnb : (bn == "") = false := by
      simp [hbn]
    cases m with
    | nil => simp [getRulesetsApplicableToBranchName]
    | cons p t =>
      unfold getRulesetsApplicableToBranchName
      rw [hbnb]
      simp only [Bool.false_or, List.length_cons]
      rw [if_neg (by simp)]
      exact applicableGo_filter bn d _
  refine ⟨by simp [getRulesetsApplicableToBranchName], by simp [getRulesetsApplicableToBranchName], hfilter, ?_⟩
  intro rs hrs
  by_cases hbn : bn = ""
  · subst hbn
    simp [getRulesetsApplicableToBranchName] at hrs
  · rw [hfilter hbn] at hrs
    have hpred := (List.mem_filter.mp hrs).2
    have hinc : branchNameMatchesPatterns bn (rsInclude rs) d true = true :=
      ((Bool.and_eq_true _ _).mp hpred).1
    cases hboth : (optEmptyPatterns (rsInclude rs) && optEmptyPatterns (rsExclude rs)) with
    | false => rfl
    | true =>
      have hincF := branchNameMatchesPatterns_empty bn (rsInclude rs) d true
        ((Bool.and_eq_true _ _).mp hboth).1
      rw [hinc] at hincF
      exact absurd hincF (by simp)

/-- C1 witness: a concrete ruleset including `main` is selected for branch `main`
and the selection agrees with the include-and-not-exclude filter. -/
theorem getRulesetsApplicableToBranchName_correct_witness :
    getRulesetsApplicableToBranchName "main"
      [(1, { id := 1, current_user_can_bypass := .never,
             conditions := some { ref_name := some { include_ := ["main"], exclude := [] } } })]
      none =
      [{ id := 1, current_user_can_bypass := .never,
         conditions := some { ref_name := some { include_ := ["main"], exclude := [] } } }] := by
  rw [(getRulesetsApplicableToBranchName_correct "main"
    [(1, { id := 1, current_user_can_bypass := .never,
           conditions := some { ref_name := some { include_ := ["main"], exclude := [] } } })]
    none).2.2.1 (by decide)]
  rfl

/-- C2: when the rule list contains two instances of the same simple category,
one whose ruleset's bypass capability is exactly `always` and one whose is not,
a successful aggregation reports the strict `enforced` value for that category,
not `bypass`. -/
theorem parseRepoRules_strictest_wins (rules : List IAPIRepoRule) (m : RulesetMap)
    (info : RepoRulesInfo) (r1 r2 : IAPIRepoRule) (rs1 rs2 : IAPIRepoRuleset)
    (c : SimpleCategory)
    (h1 : r1 ∈ rules) (h2 : r2 ∈ rules)
    (hc1 : ruleCategory r1.type = some c) (hc2 : ruleCategory r2.type = some c)
    (hl1 : lookupRuleset m r1.ruleset_id = some rs1)
    (hl2 : lookupRuleset m r2.ruleset_id = some rs2)
    (hb1 : rs1.current_user_can_bypass = .always)
    (hb2 : rs2.current_user_can_bypass ≠ .always)
    (hok : parseRepoRules rules m = .ok info) :
    categoryField c info = .enforced := by
  obtain ⟨s, t, rfl⟩ := List.append_of_mem h2
  unfold parseRepoRules at hok
  rw [parseGo_append] at hok
  cases hgs : parseRepoRulesGo m {} s <;> simp only [hgs] at hok
  case error => exact absurd hok (by simp)
  case ok mid =>
    simp only [parseRepoRulesGo] at hok
    cases hstep : parseStep m mid r2 <;> simp only [hstep] at hok
    case error => exact absurd hok (by simp)
    case ok mid2 =>
      have hfield : categoryField c mid2 = .enforced := by
        rw [parseStep_field_cat m mid r2 mid2 rs2 c hstep hl2 hc2,
          enfOf_of_not_always rs2 hb2]
        exact mergeEnforced_enforced _
      have hlev := parseGo_level_le m c t mid2 info hok
      rw [hfield] at hlev
      exact enforced_of_two_le _ hlev

/-- C2 witness: an `Update` rule from an always-bypassable ruleset together with
an `Update` rule from a never-bypassable ruleset aggregate to the strict value. -/
theorem parseRepoRules_strictest_wins_witness :
    categoryField SimpleCategory.basic
      { basicCommitWarning := RepoRuleEnforced.enforced } = RepoRuleEnforced.enforced :=
  parseRepoRules_strictest_wins
    [⟨.Update, 1, none⟩, ⟨.Update, 2, none⟩]
    [(1, ⟨1, .always, none⟩), (2, ⟨2, .never, none⟩)]
    { basicCommitWarning := RepoRuleEnforced.enforced }
    ⟨.Update, 1, none⟩ ⟨.Update, 2, none⟩ ⟨1, .always, none⟩ ⟨2, .never, none⟩
    SimpleCategory.basic
    (by decide) (by decide) rfl rfl rfl rfl rfl (by decide) rfl

/-- C3: enforcement merging is monotonic — aggregating a superlist of rule
instances (in the sublist sense) never yields a strictly weaker enforcement
level for any simple category, under `enforced > bypass > not-present`. -/
theorem parseRepoRules_enforcement_monotone (m : RulesetMap) (c : SimpleCategory)
    (rules1 rules2 : List IAPIRepoRule) (hsub : List.Sublist rules1 rules2)
    (i1 i2 : RepoRulesInfo)
    (h1 : parseRepoRules rules1 m = .ok i1) (h2 : parseRepoRules rules2 m = .ok i2) :
    (categoryField c i1).level ≤ (categoryField c i2).level :=
  parseGo_mono m c hsub (le_refl _) h1 h2

/-- C3 witness: extending the empty rule list by a `Creation` rule raises the
creation category from absent to enforced. -/
theorem parseRepoRules_enforcement_monotone_witness :
    (categoryField SimpleCategory.creation ({} : RepoRulesInfo)).level ≤
      (categoryField SimpleCategory.creation
        { creationRestricted := RepoRuleEnforced.enforced }).level :=
  parseRepoRules_enforcement_monotone
    [(1, ⟨1, .never, none⟩)] SimpleCategory.creation
    [] [⟨.Creation, 1, none⟩] (List.nil_sublist _)
    {} { creationRestricted := RepoRuleEnforced.enforced } rfl rfl

/-- C4: a rule whose ruleset id is absent from the ruleset map contributes
nothing to the summary: removing it from the rule list leaves the whole result of
`parseRepoRules` unchanged, whatever the rule's type. -/
theorem parseRepoRules_unknown_ruleset_dropped (l1 l2 : List IAPIRepoRule)
    (r : IAPIRepoRule) (m : RulesetMap)
    (h : lookupRuleset m r.ruleset_id = none) :
    parseRepoRules (l1 ++ r :: l2) m = parseRepoRules (l1 ++ l2) m := by
  unfold parseRepoRules
  rw [parseGo_append, parseGo_append]
  cases hg : parseRepoRulesGo m {} l1
  · rfl
  · dsimp only
    simp only [parseRepoRulesGo, parseStep_ok_of_none m _ r h]

/-- C4 witness: a rule referencing ruleset 7 in an empty ruleset map is dropped
from the aggregation. -/
theorem parseRepoRules_unknown_ruleset_dropped_witness :
    parseRepoRules [⟨.Creation, 7, none⟩] [] = parseRepoRules [] [] :=
  parseRepoRules_unknown_ruleset_dropped [] [] ⟨.Creation, 7, none⟩ [] rfl

/-- C5 counterexample: in include-list evaluation with the default branch known
to be `main`, the pattern `~DEFAULT` nevertheless matches the branch literally
named `~DEFAULT` (through the literal glob fallback), refuting the claim that
`~DEFAULT` matches a branch if and only if it equals the default branch name. -/
theorem keyword_default_literal_fallback_counterexample :
    branchNameMatchesPatterns "~DEFAULT" (some ["~DEFAULT"]) (some "main") true = true ∧
    "~DEFAULT" ≠ "main" := by
  exact ⟨rfl, by decide⟩

/-- C5 amended: in include-list evaluation `~ALL` matches every branch name
unconditionally; `~DEFAULT` matches exactly when the branch name equals the known
(nonempty) default branch name or when the branch name matches `~DEFAULT` as a
literal glob pattern; when the default branch name is unknown only the literal
glob fallback can match. -/
theorem branchNameMatchesPatterns_keyword_semantics (bn : String) (d : Option String) :
    branchNameMatchesPatterns bn (some ["~ALL"]) d true = true ∧
    branchNameMatchesPatterns bn (some ["~DEFAULT"]) d true =
      (defaultBranchEquals d bn || minimatchMatch bn "~DEFAULT") ∧
    branchNameMatchesPatterns bn (some ["~DEFAULT"]) none true =
      minimatchMatch bn "~DEFAULT" := by
  refine ⟨?_, ?_, ?_⟩
  · simp [branchNameMatchesPatterns]
  · simp [branchNameMatchesPatterns]
  · simp [branchNameMatchesPatterns, defaultBranchEquals]

/-- C6: with keyword semantics disabled — the exclude-list evaluation path of the
selector — every pattern is evaluated purely as a glob against the branch name;
in particular the literal strings `~ALL` and `~DEFAULT` receive no keyword
treatment there. -/
theorem branchNameMatchesPatterns_exclude_literal (bn : String) (ps : List String)
    (d : Option String) :
    branchNameMatchesPatterns bn (some ps) d false =
      ps.any (fun p => minimatchMatch bn p) ∧
    branchNameMatchesPatterns bn (some ["~ALL"]) d false = minimatchMatch bn "~ALL" ∧
    branchNameMatchesPatterns bn (some ["~DEFAULT"]) d false =
      minimatchMatch bn "~DEFAULT" := by
  refine ⟨?_, ?_, ?_⟩ <;> simp [branchNameMatchesPatterns]

/-- C7: the claim says a failing regex compilation is caught and only the
offending rule degrades to an always-false matcher; in the code the
`RE2JS.compile` error propagates out of `toMatcher`, so `parseRepoRules` aborts
on the malformed pattern `(` and the well-formed `Creation` rule after it — which
alone would make the creation category enforced — is never evaluated. -/
theorem parseRepoRules_regex_compile_aborts :
    (parseRepoRules
      [⟨.CommitMessagePattern, 1, some ⟨.RegexMatch, "(", false⟩⟩, ⟨.Creation, 1, none⟩]
      [(1, ⟨1, .never, none⟩)]).isOk = false ∧
    parseRepoRules [⟨.Creation, 1, none⟩] [(1, ⟨1, .never, none⟩)] =
      .ok { creationRestricted := .enforced } := by
  exact ⟨rfl, rfl⟩

/-- C8 counterexample: a pattern rule with present parameters but an unrecognized
operator still produces a metadata entry, and that entry carries the degenerate
description text `must "x"`, refuting the claim that no description is produced. -/
theorem unrecognized_operator_description_counterexample :
    toMetadataRule ⟨.CommitMessagePattern, 1, some ⟨.unknown "future_op", "x", false⟩⟩
      .enforced =
      .ok (some { enforced := .enforced, matcher := .alwaysFalse,
                  humanDescription := "must \"x\"", rulesetId := 1 }) := rfl

/-- C8 amended: compilation never throws for a rule with absent parameters or an
unrecognized operator, and the rule can never match anything: absent parameters
produce no entry at all (hence neither matcher nor description), while an
unrecognized operator with present parameters produces an entry whose matcher is
the always-false matcher — returning false on every candidate — but whose
description is the degenerate quoted-pattern text of the fallen-through
description builder rather than no description. -/
theorem toMetadataRule_inert_behavior (r : IAPIRepoRule) (e : RepoRuleEnforced)
    (ps : IAPIRepoRuleMetadataParameters) (s : String) :
    (r.parameters = none → toMetadataRule r e = .ok none) ∧
    (r.parameters = some ps → ps.operator.isRecognized = false →
      toMetadataRule r e =
        .ok (some { enforced := e, matcher := .alwaysFalse,
                    humanDescription := toHumanDescription ps,
                    rulesetId := r.ruleset_id })) ∧
    RepoRulesMetadataMatcher.run .alwaysFalse s = false := by
  refine ⟨?_, ?_, rfl⟩
  · intro h
    simp [toMetadataRule, h]
  · intro h hop
    cases ps with
    | mk op pat neg =>
      cases op <;>
        simp_all [APIRepoRuleMetadataOperator.isRecognized, toMetadataRule, toMatcher,
          compileForOperator]

/-- C8 witness: a concrete rule without parameters yields no entry, and a
concrete rule with an unrecognized operator yields an always-false matcher with
the degenerate description. -/
theorem toMetadataRule_inert_behavior_witness :
    toMetadataRule ⟨.CommitAuthorEmailPattern, 2, none⟩ .bypass = .ok none ∧
    toMetadataRule ⟨.CommitMessagePattern, 3, some ⟨.unknown "op2", "p", true⟩⟩ .enforced =
      .ok (some { enforced := .enforced, matcher := .alwaysFalse,
                  humanDescription := toHumanDescription ⟨.unknown "op2", "p", true⟩,
                  rulesetId := 3 }) :=
  ⟨(toMetadataRule_inert_behavior ⟨.CommitAuthorEmailPattern, 2, none⟩ .bypass
      ⟨.unknown "op2", "p", true⟩ "candidate").1 rfl,
   (toMetadataRule_inert_behavior ⟨.CommitMessagePattern, 3, some ⟨.unknown "op2", "p", true⟩⟩
      .enforced ⟨.unknown "op2", "p", true⟩ "candidate").2.1 rfl rfl⟩

/-- C9: for every recognized operator and pattern for which compilation succeeds
both with and without the negate flag, the negated matcher is the pointwise
boolean negation of the plain matcher on every candidate string. -/
theorem toMatcher_negation_roundtrip (op : APIRepoRuleMetadataOperator) (pat x : String)
    (m mneg : RepoRulesMetadataMatcher)
    (hop : op.isRecognized = true)
    (h1 : toMatcher (some ⟨op, pat, false⟩) = .ok m)
    (h2 : toMatcher (some ⟨op, pat, true⟩) = .ok mneg) :
    mneg.run x = !(m.run x) := by
  cases op with
  | StartsWith => cases h1; cases h2; rfl
  | EndsWith => cases h1; cases h2; rfl
  | Contains => cases h1; cases h2; rfl
  | RegexMatch =>
    dsimp only [toMatcher, compileForOperator] at h1 h2
    cases hr : re2Compile pat <;> simp only [hr] at h1 h2
    · exact absurd h1 (by simp)
    · simp at h1 h2
      subst h1
      subst h2
      rfl
  | unknown t => simp [APIRepoRuleMetadataOperator.isRecognized] at hop

/-- C9 witness: the negated and plain starts-with matchers for the pattern `a`
disagree on the candidate `abc` exactly by negation. -/
theorem toMatcher_negation_roundtrip_witness :
    (RepoRulesMetadataMatcher.negFind (CompiledRegex.anchoredStart "a")).run "abc" =
      !((RepoRulesMetadataMatcher.find (CompiledRegex.anchoredStart "a")).run "abc") :=
  toMatcher_negation_roundtrip .StartsWith "a" "abc"
    (.find (.anchoredStart "a")) (.negFind (.anchoredStart "a")) rfl rfl rfl

/-- The empty list is a prefix of every list. -/
lemma nil_isPrefixOf_char (l : List Char) : ([] : List Char).isPrefixOf l = true := by
  cases l <;> rfl

/-- An empty needle occurs in every haystack. -/
lemma listContainsSub_nil (l : List Char) : listContainsSub [] l = true := by
  cases l <;> simp [listContainsSub, nil_isPrefixOf_char]

/-- C10: the non-negated matcher compiled from the empty pattern text for the
starts-with, ends-with or contains operator returns true on every candidate
string: such a rule constrains nothing rather than matching nothing. -/
theorem toMatcher_empty_pattern_matches_all (op : APIRepoRuleMetadataOperator) (s : String)
    (h : op = .StartsWith ∨ op = .EndsWith ∨ op = .Contains) :
    ∃ m, toMatcher (some ⟨op, "", false⟩) = .ok m ∧ m.run s = true := by
  rcases h with rfl | rfl | rfl
  · exact ⟨.find (.anchoredStart ""), rfl, nil_isPrefixOf_char s.data⟩
  · exact ⟨.find (.anchoredEnd ""), rfl, nil_isPrefixOf_char s.data.reverse⟩
  · exact ⟨.find (.containsLit ""), rfl, listContainsSub_nil s.data⟩

/-- C10 witness: the empty starts-with pattern matches a concrete branch name. -/
theorem toMatcher_empty_pattern_matches_all_witness :
    ∃ m, toMatcher (some ⟨.StartsWith, "", false⟩) = .ok m ∧
      RepoRulesMetadataMatcher.run m "any-branch" = true :=
  toMatcher_empty_pattern_matches_all .StartsWith "any-branch" (Or.inl rfl)

end RepoRules
